import Mathlib

/-!
Verification of the project-resolution and parallel-execution core of
`command.py` (class `Command`): `GetProjects`, `_GetProjectByPath`,
`_ResetPathToProjectMap`, `FindProjects` and `ExecuteInParallel`, together
with the group-string tokenization they use.

The embedding is shallow.  `Project` and `Manifest` are the external
entities the code consumes; their query capabilities that live outside
this file's source (`MatchesGroups`, `GetProjectsWithName`, the regex
search of `re`, `os.path.exists` and `os.path.abspath`) are carried as
function-valued parameters in `Env` / `Manifest`, since the code under
verification only calls them.  Python exceptions are modelled with
`Except`, the mutable `self._by_path` dict and the in-place mutation of
`manifest.projects` are modelled by explicit state passing: `GetProjects`
returns, besides its result, the final `_by_path` map and the final
`manifest.projects` list.
-/

/-- External `Project` entity (from the manifest layer): `name`, `relpath`,
`worktree`, on-disk existence flag `Exists`, `Derived` flag, `sync_s` flag
and the result of `GetDerivedSubprojects()`.  Subprojects are projects, so
this is a nested inductive. -/
inductive Project : Type where
  | mk (name relpath worktree : String) (ex derived sync_s : Bool)
       (subprojects : List Project) : Project

def Project.name : Project → String
  | .mk n _ _ _ _ _ _ => n

def Project.relpath : Project → String
  | .mk _ r _ _ _ _ _ => r

def Project.worktree : Project → String
  | .mk _ _ w _ _ _ _ => w

/-- Models the `project.Exists` property (worktree/gitdir present on disk). -/
def Project.Exists : Project → Bool
  | .mk _ _ _ e _ _ _ => e

def Project.Derived : Project → Bool
  | .mk _ _ _ _ d _ _ => d

def Project.sync_s : Project → Bool
  | .mk _ _ _ _ _ s _ => s

/-- Models `project.GetDerivedSubprojects()`. -/
def Project.GetDerivedSubprojects : Project → List Project
  | .mk _ _ _ _ _ _ sp => sp

/-- External `Manifest` entity: the canonical project list, the top-level
directory, the default group string returned by `GetGroupsStr()`, and the
name-query capability `GetProjectsWithName`. -/
structure Manifest : Type where
  projects : List Project
  topdir : String
  GetGroupsStr : String
  GetProjectsWithName : String → List Project

/-- Ambient capabilities consumed by `command.py` but defined elsewhere:
`os.path.exists`, `os.path.abspath(arg).replace('\\', '/')`, and the
project capability `MatchesGroups`. -/
structure Env : Type where
  fsExists : String → Bool
  abspath : String → String
  MatchesGroups : Project → List String → Bool

/-- The two resolution errors of `command.py`: `NoSuchProjectError` and
`InvalidProjectGroupsError`, each carrying the string passed to the
constructor at the raise site. -/
inductive RepoError : Type where
  | noSuchProject (msg : String)
  | invalidProjectGroups (arg : String)
deriving DecidableEq

/-! ### String ordering

Python's `result.sort(key=lambda p: p.relpath)` sorts ascending by the
code-point lexicographic order on strings.  `charsLe` is that order on the
underlying character lists. -/

def charsLe : List Char → List Char → Bool
  | [], _ => true
  | _ :: _, [] => false
  | a :: as, b :: bs => if a.toNat = b.toNat then charsLe as bs else decide (a.toNat < b.toNat)

def relpathLe (a b : Project) : Bool := charsLe a.relpath.toList b.relpath.toList

def projectLe (a b : Project) : Prop := relpathLe a b = true

instance : DecidableRel projectLe := fun a b => inferInstanceAs (Decidable (_ = true))

/-- `result.sort(key=_getpath)`: Python list sort is a stable ascending
sort; modelled by stable insertion sort on the `relpath` order. -/
def sortByRelpath (l : List Project) : List Project := l.insertionSort projectLe

/-! ### Group tokenization

`groups = [x for x in re.split(r'[,\s]+', groups) if x]`: splitting on a
maximal run of commas/whitespace and discarding empty pieces leaves
exactly the maximal runs of non-separator characters, in order.
`splitTokens` computes those runs.  (Python's `\s` additionally matches
non-ASCII unicode whitespace; group strings are ASCII manifest tokens.) -/

def isGroupSep (c : Char) : Bool :=
  c == ',' || c == ' ' || c == '\t' || c == '\n' || c == '\r' || c == '\x0b' || c == '\x0c'

def splitTokens (p : Char → Bool) (l : List Char) : List (List Char) :=
  match l with
  | [] => []
  | c :: cs =>
    if p c then splitTokens p cs
    else (c :: cs.takeWhile (fun d => !(p d))) :: splitTokens p (cs.dropWhile (fun d => !(p d)))
termination_by l.length
decreasing_by
  · simp [Nat.lt_succ_of_le]
  · exact Nat.lt_succ_of_le (List.dropWhile_sublist _ |>.length_le)

def tokenizeGroups (s : String) : List String :=
  (splitTokens isGroupSep s.toList).map String.mk

/-- Joining a token list with one separator character (used to state the
re-split/re-join round trip of the tokenizer). -/
def joinSep : List (List Char) → List Char
  | [] => []
  | [t] => t
  | t :: u :: ts => t ++ ',' :: joinSep (u :: ts)

def rejoinGroups (ts : List String) : String := String.mk (joinSep (ts.map String.toList))

/-- Lines 241-243: `if not groups: groups = manifest.GetGroupsStr()` then
tokenize. -/
def effectiveGroups (m : Manifest) (groups : String) : List String :=
  tokenizeGroups (if groups = "" then m.GetGroupsStr else groups)

/-! ### Python dict as an insertion-ordered association list

`dict` preserves first-insertion position of keys; a later insert with an
existing key overwrites the value in place. -/

def dictGet (d : List (String × Project)) (k : String) : Option Project :=
  (d.find? (fun kv => kv.fst == k)).map Prod.snd

def dictUpdate (d : List (String × Project)) (k : String) (v : Project) :
    List (String × Project) :=
  if d.any (fun kv => kv.fst == k) then
    d.map (fun kv => if kv.fst == k then (k, v) else kv)
  else d ++ [(k, v)]

/-- Insert projects one by one, keyed by `key` (`dict.update` over a
generator of `(key(p), p)` pairs). -/
def dictInsertProjects (key : Project → String) (d : List (String × Project))
    (ps : List Project) : List (String × Project) :=
  ps.foldl (fun d p => dictUpdate d (key p) p) d

/-- Lines 199-200: `self._by_path = dict((p.worktree, p) for p in projects)`. -/
def ResetPathToProjectMap (projects : List Project) : List (String × Project) :=
  dictInsertProjects Project.worktree [] projects

/-! ### `os.path.dirname` for '/'-normalized paths (posixpath.dirname) -/

def dirnameChars (l : List Char) : List Char :=
  let head := (l.reverse.dropWhile (fun c => !(c == '/'))).reverse
  if head.all (fun c => c == '/') then head
  else (head.reverse.dropWhile (fun c => c == '/')).reverse

def dirname (p : String) : String := String.mk (dirnameChars p.toList)

/-- Taking the dirname either leaves the path unchanged (root reached) or
strictly shortens it; this justifies termination of the ancestor walk of
`_GetProjectByPath`, whose loop stops as soon as `dirname` is a fixpoint. -/
theorem dirnameChars_eq_or_lt (l : List Char) :
    dirnameChars l = l ∨ (dirnameChars l).length < l.length := by
  unfold dirnameChars
  set d := l.reverse.dropWhile (fun c => !(c == '/')) with hd
  have hsub : d.Sublist l.reverse := List.dropWhile_sublist _
  have hle : d.length ≤ l.length := by
    simpa using hsub.length_le
  by_cases hall : d.reverse.all (fun c => c == '/')
  · rw [if_pos hall]
    rcases Nat.lt_or_ge d.length l.length with hlt | hge
    · right; simpa using hlt
    · left
      have hlen : d.length = l.reverse.length := by
        simp only [List.length_reverse]; omega
      have : d = l.reverse := hsub.eq_of_length hlen
      rw [this, List.reverse_reverse]
  · rw [if_neg hall]
    rcases Nat.lt_or_ge d.length l.length with hlt | hge
    · right
      have : (d.reverse.reverse.dropWhile (fun c => c == '/')).length ≤ d.length := by
        rw [List.reverse_reverse]
        simpa using (List.dropWhile_sublist (l := d) (fun c => c == '/')).length_le
      simp only [List.length_reverse]
      omega
    · -- nothing was dropped by the first dropWhile: `l.reverse` starts with '/'
      have hlen : d.length = l.reverse.length := by
        simp only [List.length_reverse]; omega
      have hdl : d = l.reverse := hsub.eq_of_length hlen
      right
      cases hc : l.reverse with
      | nil =>
        exfalso
        apply hall
        rw [hdl, hc]
        rfl
      | cons c t =>
        have hcslash : (c == '/') = true := by
          by_contra hne
          have hq : (fun c => !(c == '/')) c = true := by
            simp only [Bool.not_eq_true] at hne
            simp [hne]
          have : d = l.reverse.dropWhile (fun c => !(c == '/')) := hd
          rw [hc, List.dropWhile_cons, if_pos hq] at this
          have hlt2 : d.length ≤ t.length :=
            this ▸ (List.dropWhile_sublist (l := t) (fun c => !(c == '/'))).length_le
          rw [hdl, hc] at hlt2
          simp at hlt2
        have hdc : d = c :: t := by rw [hdl, hc]
        have : (d.reverse.reverse.dropWhile (fun c => c == '/')).length ≤ t.length := by
          rw [List.reverse_reverse, hdc, List.dropWhile_cons, if_pos hcslash]
          simpa using (List.dropWhile_sublist (l := t) (fun c => c == '/')).length_le
        have hlenl : l.length = t.length + 1 := by
          have := congrArg List.length hc
          simpa [Nat.add_comm] using this
        simp only [List.length_reverse]
        omega

theorem dirname_eq_or_length_lt (p : String) :
    dirname p = p ∨ (dirname p).length < p.length := by
  rcases dirnameChars_eq_or_lt p.toList with h | h
  · left
    show String.mk (dirnameChars p.toList) = p
    rw [h]
    rfl
  · right
    exact h

theorem dirname_lt_of_ne {p : String} (h : ¬ dirname p = p) :
    (dirname p).length < p.length :=
  (dirname_eq_or_length_lt p).resolve_left h

/-! ### `_GetProjectByPath` (lines 205-228) -/

/-- The `while` loop of `_GetProjectByPath`: starting at `path`, probe the
index, move to the parent on a miss, stop on a hit, on the empty path, on
the manifest top directory, or when the parent no longer changes the path.
Returns the matched project (if any) and the value of the `path` variable
at loop exit. -/
def walkPath (byPath : List (String × Project)) (topdir : String) (path : String) :
    Option Project × String :=
  if path = "" ∨ path = topdir then (none, path)
  else
    match dictGet byPath path with
    | some project => (some project, path)
    | none =>
      if hp : dirname path = path then (none, path)
      else walkPath byPath topdir (dirname path)
termination_by path.length
decreasing_by exact dirname_lt_of_ne hp

/-- The sequence of paths the loop of `_GetProjectByPath` probes in the
index (independent of the index contents), together with the loop-exit
path: `path`, then each successive parent, stopping before the empty path
or the top directory, and stopping after a `dirname` fixpoint. -/
def probeChain (topdir : String) (path : String) : List String × String :=
  if path = "" ∨ path = topdir then ([], path)
  else if hp : dirname path = path then ([path], path)
  else
    let rest := probeChain topdir (dirname path)
    (path :: rest.fst, rest.snd)
termination_by path.length
decreasing_by exact dirname_lt_of_ne hp

/-- `_GetProjectByPath` (lines 205-228): ancestor walk when the path
exists on disk (with one extra probe of the top directory if the walk
ended there), a single exact lookup otherwise. -/
def GetProjectByPath (env : Env) (byPath : List (String × Project)) (m : Manifest)
    (path : String) : Option Project :=
  if env.fsExists path then
    match walkPath byPath m.topdir path with
    | (some project, _) => some project
    | (none, finalPath) =>
      if finalPath = m.topdir then dictGet byPath m.topdir else none
  else dictGet byPath path

/-! ### `GetProjects` (lines 230-296) -/

/-- One argument of the non-empty-args loop (lines 258-280): name lookup
filtered by groups; on failure path resolution via `_GetProjectByPath`,
with lazy expansion of the matched project's derived subprojects into the
path index and one re-resolution (`project = ... or project`).  Returns
the projects now associated with the argument and the updated index. -/
def resolveArg (env : Env) (m : Manifest) (groups : List String) (submodules_ok : Bool)
    (byPath : List (String × Project)) (arg : String) :
    List Project × List (String × Project) :=
  let projects := (m.GetProjectsWithName arg).filter (fun p => env.MatchesGroups p groups)
  if projects.isEmpty then
    let path := env.abspath arg
    match GetProjectByPath env byPath m path with
    | none => ([], byPath)
    | some project =>
      if !project.Derived && (submodules_ok || project.sync_s) then
        let byPath' := dictInsertProjects Project.worktree byPath project.GetDerivedSubprojects
        let project' :=
          if !project.GetDerivedSubprojects.isEmpty then
            (GetProjectByPath env byPath' m path).getD project
          else project
        ([project'], byPath')
      else ([project], byPath)
  else (projects, byPath)

/-- The per-project checks of lines 285-289: missing project raises
`NoSuchProjectError('%s (%s)' % (arg, project.relpath))`, group mismatch
raises `InvalidProjectGroupsError(arg)`; first failure aborts. -/
def validateProjects (env : Env) (groups : List String) (missing_ok : Bool) (arg : String) :
    List Project → Option RepoError
  | [] => none
  | project :: rest =>
    if !missing_ok && !project.Exists then
      some (.noSuchProject (arg ++ " (" ++ project.relpath ++ ")"))
    else if !(env.MatchesGroups project groups) then
      some (.invalidProjectGroups arg)
    else validateProjects env groups missing_ok arg rest

/-- The `for arg in args` loop of lines 258-291, threading the `_by_path`
index and accumulating the result; a raise aborts the whole call. -/
def processArgs (env : Env) (m : Manifest) (groups : List String)
    (missing_ok submodules_ok : Bool) (byPath : List (String × Project)) :
    List String → Except RepoError (List Project) × List (String × Project)
  | [] => (.ok [], byPath)
  | arg :: rest =>
    let step := resolveArg env m groups submodules_ok byPath arg
    if step.fst.isEmpty then (.error (.noSuchProject arg), step.snd)
    else
      match validateProjects env groups missing_ok arg step.fst with
      | some e => (.error e, step.snd)
      | none =>
        match processArgs env m groups missing_ok submodules_ok step.snd rest with
        | (.ok res, byPath') => (.ok (step.fst ++ res), byPath')
        | (.error e, byPath') => (.error e, byPath')

/-- Lines 246-250: the `derived_projects` dict, keyed by subproject name,
filled from every sync-eligible project's derived subprojects (later
discoveries overwrite earlier ones with the same name). -/
def derivedProjectsDict (m : Manifest) (submodules_ok : Bool) : List (String × Project) :=
  m.projects.foldl (fun d project =>
    if submodules_ok || project.sync_s then
      dictInsertProjects Project.name d project.GetDerivedSubprojects
    else d) []

/-- The derived subprojects in discovery order (before name-keyed merging). -/
def discoveredSubprojects (m : Manifest) (submodules_ok : Bool) : List Project :=
  (m.projects.filter (fun p => submodules_ok || p.sync_s)).flatMap Project.GetDerivedSubprojects

/-- Observable outcome of one `GetProjects` call: the returned list (or
the raised error), the final `self._by_path` attribute, and the final
`manifest.projects` list (which `all_projects_list.extend(...)` mutates
in place in empty-args mode). -/
structure GetProjectsResult : Type where
  res : Except RepoError (List Project)
  by_path : List (String × Project)
  manifestProjects : List Project

/-- `Command.GetProjects` (lines 230-296).  `by_path` is the value of
`self._by_path` when the call starts (the attribute a previous call may
have left behind). -/
def GetProjects (env : Env) (by_path : List (String × Project)) (m : Manifest)
    (args : List String) (groups : String) (missing_ok submodules_ok : Bool) :
    GetProjectsResult :=
  let all_projects_list := m.projects
  let grps := effectiveGroups m groups
  if args.isEmpty then
    let extended := all_projects_list ++ (derivedProjectsDict m submodules_ok).map Prod.snd
    let result := extended.filter (fun p => (missing_ok || p.Exists) && env.MatchesGroups p grps)
    { res := .ok (sortByRelpath result), by_path := by_path, manifestProjects := extended }
  else
    match processArgs env m grps missing_ok submodules_ok
        (ResetPathToProjectMap all_projects_list) args with
    | (.ok result, bp) =>
      { res := .ok (sortByRelpath result), by_path := bp, manifestProjects := all_projects_list }
    | (.error e, bp) =>
      { res := .error e, by_path := bp, manifestProjects := all_projects_list }

/-! ### `FindProjects` (lines 298-313) -/

/-- The inner `for pattern in patterns` loop with its `else` clause:
returns whether the project is appended to the result.  `search pat s`
stands for `re.compile(pat, re.IGNORECASE).search(s)` succeeding; the
regex engine is external, so it is a parameter. -/
def findLoop (search : String → String → Bool) (inverse : Bool) (project : Project) :
    List String → Bool
  | [] => inverse
  | pat :: rest =>
    if search pat project.name || search pat project.relpath then !inverse
    else findLoop search inverse project rest

/-- `Command.FindProjects` (lines 298-313): filters `self.GetProjects('')`
by the pattern loop and sorts by relpath. -/
def FindProjects (env : Env) (by_path : List (String × Project)) (m : Manifest)
    (search : String → String → Bool) (args : List String) (inverse : Bool) :
    List Project :=
  let all := ((GetProjects env by_path m [] "" false false).res).toOption.getD []
  sortByRelpath (all.filter (fun p => findLoop search inverse p args))

/-! ### `ExecuteInParallel` (lines 161-197)

`func` and `callback` may raise: modelled with `Except`.  The generator /
`imap` result stream is modelled as the list of per-element outcomes of
`func`, which the callback consumes.  `imap_unordered` yields results in
completion order; that nondeterministic order is a parameter
`completionOrder`.  The `with multiprocessing.Pool(jobs) as pool` /
`finally` discipline is modelled by recording which pool (if any) was
constructed and how many times `output.end()` ran: the `finally` clause
runs `output.end()` exactly when `output` is a `progress.Progress`,
whether the body returned or raised.  `chunksize=WORKER_BATCH_SIZE`
affects only scheduling granularity and has no observable effect here. -/

structure Pool : Type where
  jobs : Nat
deriving DecidableEq

/-- The optional output manager: `progress.Progress` (has the `end()`
completion hook) or `color.Coloring` (has none). -/
inductive OutputSink : Type where
  | progressSink
  | coloringSink
deriving DecidableEq

structure ExecOutcome (ε γ : Type) : Type where
  value : Except ε γ
  poolUsed : Option Pool
  endCalls : Nat

def ExecuteInParallel {α β γ ε : Type} (jobs : Nat) (func : α → Except ε β)
    (inputs : List α)
    (callback : Option Pool → Option OutputSink → List (Except ε β) → Except ε γ)
    (output : Option OutputSink) (ordered : Bool)
    (completionOrder : List α → List α) : ExecOutcome ε γ :=
  if inputs.length = 1 ∨ jobs = 1 then
    { value := callback none output (inputs.map func)
      poolUsed := none
      endCalls := if output = some OutputSink.progressSink then 1 else 0 }
  else
    { value := callback (some ⟨jobs⟩) output
        ((if ordered then inputs else completionOrder inputs).map func)
      poolUsed := some ⟨jobs⟩
      endCalls := if output = some OutputSink.progressSink then 1 else 0 }

/-! ### Concrete instances used by witnesses and counterexamples -/

def proj0 : Project := Project.mk "p0" "p0" "/top/p0" true false false []

def manifest0 : Manifest := ⟨[proj0], "/top", "", fun _ => []⟩

def env0 : Env := ⟨fun _ => false, id, fun _ _ => true⟩

def manifestE : Manifest := ⟨[], "/top", "", fun _ => []⟩

def projA : Project := Project.mk "projA" "pa" "/top/pa" true false false []

def manifestC8 : Manifest :=
  ⟨[projA], "/top", "", fun n => if n = "projA" then [projA] else []⟩

def sub1 : Project := Project.mk "sub" "s1" "/top/s1" true true false []

def sub2 : Project := Project.mk "sub" "s2" "/top/s2" true true false []

def projA2 : Project := Project.mk "a2" "a2" "/top/a2" true false true [sub1]

def projB2 : Project := Project.mk "b2" "b2" "/top/b2" true false true [sub2]

def manifestD : Manifest := ⟨[projA2, projB2], "/top", "", fun _ => []⟩

def projT : Project := Project.mk "proj" "proj" "/top/proj" true false false []

def bpT : List (String × Project) := [("/top/proj", projT)]

def manifestT : Manifest := ⟨[projT], "/top", "", fun _ => []⟩

def envT : Env := ⟨fun _ => true, id, fun _ _ => true⟩

/-! ## Helper lemmas -/

theorem charsLe_total : ∀ x y : List Char, charsLe x y = true ∨ charsLe y x = true
  | [], _ => Or.inl rfl
  | _ :: _, [] => Or.inr rfl
  | a :: as, b :: bs => by
    simp only [charsLe]
    by_cases h : a.toNat = b.toNat
    · rw [if_pos h, if_pos h.symm]
      exact charsLe_total as bs
    · rw [if_neg h, if_neg (fun hh => h hh.symm)]
      rcases Nat.lt_or_ge a.toNat b.toNat with hlt | hge
      · exact Or.inl (by simpa using hlt)
      · exact Or.inr (by simp [Nat.lt_of_le_of_ne hge (fun hh => h hh.symm)])

theorem charsLe_trans : ∀ x y z : List Char,
    charsLe x y = true → charsLe y z = true → charsLe x z = true
  | [], _, _, _, _ => rfl
  | _ :: _, [], _, h, _ => by simp [charsLe] at h
  | _ :: _, _ :: _, [], _, h => by simp [charsLe] at h
  | a :: as, b :: bs, c :: cs, h1, h2 => by
    simp only [charsLe] at h1 h2 ⊢
    by_cases hab : a.toNat = b.toNat <;> by_cases hbc : b.toNat = c.toNat
    · rw [if_pos hab] at h1
      rw [if_pos hbc] at h2
      rw [if_pos (hab.trans hbc)]
      exact charsLe_trans as bs cs h1 h2
    · rw [if_neg hbc] at h2
      have h2' : b.toNat < c.toNat := by simpa using h2
      have hlt : a.toNat < c.toNat := by omega
      rw [if_neg (by omega)]
      simpa using hlt
    · rw [if_neg hab] at h1
      have h1' : a.toNat < b.toNat := by simpa using h1
      have hlt : a.toNat < c.toNat := by omega
      rw [if_neg (by omega)]
      simpa using hlt
    · rw [if_neg hab] at h1
      rw [if_neg hbc] at h2
      have h1' : a.toNat < b.toNat := by simpa using h1
      have h2' : b.toNat < c.toNat := by simpa using h2
      have hlt : a.toNat < c.toNat := by omega
      rw [if_neg (by omega)]
      simpa using hlt

theorem mem_sortByRelpath {p : Project} {l : List Project} :
    p ∈ sortByRelpath l ↔ p ∈ l :=
  (List.perm_insertionSort projectLe l).mem_iff

theorem sorted_sortByRelpath (l : List Project) : (sortByRelpath l).Sorted projectLe := by
  haveI : IsTotal Project projectLe := ⟨fun a b => charsLe_total _ _⟩
  haveI : IsTrans Project projectLe := ⟨fun a b c h1 h2 => charsLe_trans _ _ _ h1 h2⟩
  exact List.sorted_insertionSort projectLe l

theorem find?_map_update_self (k : String) (v : Project) :
    ∀ d : List (String × Project), d.any (fun kv => kv.fst == k) = true →
      (d.map (fun kv => if kv.fst == k then (k, v) else kv)).find? (fun kv => kv.fst == k)
        = some (k, v)
  | [], h => by simp at h
  | kv :: t, h => by
    by_cases hk : (kv.fst == k) = true
    · rw [List.map_cons, if_pos hk, List.find?_cons]
      have hself : ((k, v).fst == k) = true := by simp
      rw [hself]
    · have hk' : (kv.fst == k) = false := eq_false_of_ne_true hk
      rw [List.any_cons, hk', Bool.false_or] at h
      rw [List.map_cons, if_neg hk, List.find?_cons, hk']
      exact find?_map_update_self k v t h

theorem find?_map_update_other (k : String) (v : Project) (k' : String) (hne : ¬ k = k') :
    ∀ d : List (String × Project),
      (d.map (fun kv => if kv.fst == k then (k, v) else kv)).find? (fun kv => kv.fst == k')
        = d.find? (fun kv => kv.fst == k')
  | [] => rfl
  | kv :: t => by
    by_cases hk : (kv.fst == k) = true
    · have hkv : kv.fst = k := by simpa using hk
      have h1 : (k == k') = false := by simpa using hne
      have h2 : (kv.fst == k') = false := by
        rw [hkv]; exact h1
      rw [List.map_cons, if_pos hk, List.find?_cons, List.find?_cons, h1, h2]
      exact find?_map_update_other k v k' hne t
    · rw [List.map_cons, if_neg hk, List.find?_cons, List.find?_cons]
      by_cases hk' : (kv.fst == k') = true
      · rw [hk']
      · rw [eq_false_of_ne_true hk']
        exact find?_map_update_other k v k' hne t

theorem dictGet_dictUpdate (d : List (String × Project)) (k : String) (v : Project)
    (k' : String) :
    dictGet (dictUpdate d k v) k' = if k = k' then some v else dictGet d k' := by
  unfold dictUpdate dictGet
  by_cases hany : d.any (fun kv => kv.fst == k) = true
  · rw [if_pos hany]
    by_cases hkk : k = k'
    · subst hkk
      rw [if_pos rfl, find?_map_update_self k v d hany]
      rfl
    · rw [if_neg hkk, find?_map_update_other k v k' hkk d]
  · rw [if_neg hany]
    rw [List.find?_append]
    by_cases hkk : k = k'
    · subst hkk
      have hnone : d.find? (fun kv => kv.fst == k) = none := by
        rw [List.find?_eq_none]
        intro kv hkv hbeq
        exact hany (List.any_eq_true.mpr ⟨kv, hkv, hbeq⟩)
      rw [if_pos rfl, hnone]
      simp [List.find?_cons]
    · rw [if_neg hkk]
      have hone : List.find? (fun kv => kv.fst == k') [(k, v)] = none := by
        simp [List.find?_cons, hkk]
      rw [hone, Option.or_none]

theorem dictGet_dictInsertProjects (key : Project → String) :
    ∀ (ps : List Project) (d : List (String × Project)) (k : String),
      dictGet (dictInsertProjects key d ps) k =
        (ps.reverse.find? (fun p => key p == k)).or (dictGet d k)
  | [], d, k => by simp [dictInsertProjects]
  | p :: t, d, k => by
    have hstep : dictInsertProjects key d (p :: t)
        = dictInsertProjects key (dictUpdate d (key p) p) t := rfl
    rw [hstep, dictGet_dictInsertProjects key t _ k, dictGet_dictUpdate]
    rw [List.reverse_cons, List.find?_append]
    have hone : List.find? (fun q => key q == k) [p]
        = if key p = k then some p else none := by
      by_cases h : (key p == k) = true
      · simp [List.find?_cons, h, show key p = k by simpa using h]
      · simp [List.find?_cons, eq_false_of_ne_true h, show ¬ key p = k by simpa using h]
    rw [hone]
    by_cases hfind : t.reverse.find? (fun q => key q == k) = none
    · rw [hfind]
      by_cases hk : key p = k
      · simp [hk]
      · simp [hk]
    · obtain ⟨q, hq⟩ := Option.ne_none_iff_exists'.mp hfind
      rw [hq]
      simp

theorem dictGet_mem_values {d : List (String × Project)} {k : String} {v : Project}
    (h : dictGet d k = some v) : v ∈ d.map Prod.snd := by
  unfold dictGet at h
  obtain ⟨kv, hkv, hv⟩ := Option.map_eq_some'.mp h
  exact hv ▸ List.mem_map_of_mem Prod.snd (List.mem_of_find?_eq_some hkv)

theorem mem_values_dictUpdate {v' : Project} {d : List (String × Project)}
    {k : String} {v : Project}
    (h : v' ∈ (dictUpdate d k v).map Prod.snd) : v' ∈ d.map Prod.snd ∨ v' = v := by
  unfold dictUpdate at h
  by_cases hany : d.any (fun kv => kv.fst == k) = true
  · rw [if_pos hany] at h
    obtain ⟨kv2, hkv2, hv⟩ := List.mem_map.mp h
    obtain ⟨kv, hkv, hf⟩ := List.mem_map.mp hkv2
    by_cases hk : (kv.fst == k) = true
    · right
      rw [← hv, ← hf, if_pos hk]
    · left
      exact List.mem_map.mpr ⟨kv, hkv, by rw [← hv, ← hf, if_neg hk]⟩
  · rw [if_neg hany, List.map_append] at h
    rcases List.mem_append.mp h with h1 | h1
    · exact Or.inl h1
    · right
      simpa using h1

theorem mem_values_dictInsertProjects {key : Project → String} :
    ∀ {ps : List Project} {d : List (String × Project)} {v' : Project},
      v' ∈ (dictInsertProjects key d ps).map Prod.snd →
        v' ∈ d.map Prod.snd ∨ v' ∈ ps := by
  intro ps
  induction ps with
  | nil => intro d v' h; exact Or.inl h
  | cons p t ih =>
    intro d v' h
    have hstep : dictInsertProjects key d (p :: t)
        = dictInsertProjects key (dictUpdate d (key p) p) t := rfl
    rw [hstep] at h
    rcases ih h with h1 | h1
    · rcases mem_values_dictUpdate h1 with h2 | h2
      · exact Or.inl h2
      · exact Or.inr (h2 ▸ List.mem_cons_self p t)
    · exact Or.inr (List.mem_cons_of_mem p h1)

theorem dictInsertProjects_append (key : Project → String) (d : List (String × Project))
    (xs ys : List Project) :
    dictInsertProjects key d (xs ++ ys)
      = dictInsertProjects key (dictInsertProjects key d xs) ys :=
  List.foldl_append _ _ _ _

theorem derivedProjectsDict_eq_aux (so : Bool) :
    ∀ (l : List Project) (d : List (String × Project)),
      l.foldl (fun d project =>
        if so || project.sync_s then
          dictInsertProjects Project.name d project.GetDerivedSubprojects
        else d) d
      = dictInsertProjects Project.name d
          ((l.filter (fun p => so || p.sync_s)).flatMap Project.GetDerivedSubprojects)
  | [], _ => rfl
  | p :: t, d => by
    by_cases hp : (so || p.sync_s) = true
    · rw [List.foldl_cons, if_pos hp, derivedProjectsDict_eq_aux so t _,
        List.filter_cons, if_pos hp, List.flatMap_cons, dictInsertProjects_append]
    · rw [List.foldl_cons, if_neg hp, derivedProjectsDict_eq_aux so t _,
        List.filter_cons, if_neg hp]

theorem derivedProjectsDict_eq (m : Manifest) (so : Bool) :
    derivedProjectsDict m so
      = dictInsertProjects Project.name [] (discoveredSubprojects m so) :=
  derivedProjectsDict_eq_aux so m.projects []

theorem splitTokens_sound (p : Char → Bool) :
    ∀ (n : Nat) (l : List Char), l.length ≤ n →
      ∀ t ∈ splitTokens p l, t ≠ [] ∧ ∀ c ∈ t, p c = false := by
  intro n
  induction n with
  | zero =>
    intro l hl t ht
    have : l = [] := List.eq_nil_of_length_eq_zero (Nat.le_zero.mp hl)
    subst this
    rw [splitTokens] at ht
    simp at ht
  | succ n ih =>
    intro l hl t ht
    cases l with
    | nil =>
      rw [splitTokens] at ht
      simp at ht
    | cons c cs =>
      rw [splitTokens] at ht
      by_cases hc : p c = true
      · rw [if_pos hc] at ht
        exact ih cs (by simpa using Nat.le_of_succ_le_succ hl) t ht
      · rw [if_neg hc] at ht
        rcases List.mem_cons.mp ht with h1 | h1
        · subst h1
          refine ⟨by simp, ?_⟩
          intro x hx
          rcases List.mem_cons.mp hx with h2 | h2
          · subst h2; exact eq_false_of_ne_true hc
          · have := List.mem_takeWhile_imp h2
            simpa using this
        · refine ih (cs.dropWhile (fun d => !(p d))) ?_ t h1
          have : (cs.dropWhile (fun d => !(p d))).length ≤ cs.length :=
            (List.dropWhile_sublist _).length_le
          have hcs : cs.length ≤ n := by simpa using Nat.le_of_succ_le_succ hl
          omega

theorem takeWhile_token_append (q : Char → Bool) :
    ∀ (t l : List Char), (∀ c ∈ t, q c = true) →
      (∀ c, l.head? = some c → q c = false) →
      (t ++ l).takeWhile q = t ∧ (t ++ l).dropWhile q = l := by
  intro t
  induction t with
  | nil =>
    intro l _ hl
    constructor
    · cases l with
      | nil => rfl
      | cons c cs =>
        simp only [List.nil_append, List.takeWhile_cons, hl c rfl]
        rfl
    · cases l with
      | nil => rfl
      | cons c cs =>
        simp only [List.nil_append, List.dropWhile_cons, hl c rfl]
        rfl
  | cons a t' ih =>
    intro l ht hl
    have ha : q a = true := ht a (List.mem_cons_self a t')
    have ht' : ∀ c ∈ t', q c = true := fun c hc => ht c (List.mem_cons_of_mem a hc)
    obtain ⟨h1, h2⟩ := ih l ht' hl
    constructor
    · simp only [List.cons_append, List.takeWhile_cons, ha, if_true, h1]
    · simp only [List.cons_append, List.dropWhile_cons, ha, if_true, h2]

theorem splitTokens_token_append (p : Char → Bool) (t l : List Char)
    (ht : t ≠ []) (htc : ∀ c ∈ t, p c = false)
    (hl : ∀ c, l.head? = some c → p c = true) :
    splitTokens p (t ++ l) = t :: splitTokens p l := by
  cases t with
  | nil => exact absurd rfl ht
  | cons a t' =>
    have ha : p a = false := htc a (List.mem_cons_self a t')
    have hq : ∀ c ∈ t', (fun d => !(p d)) c = true := by
      intro c hc
      simp [htc c (List.mem_cons_of_mem a hc)]
    have hql : ∀ c, l.head? = some c → (fun d => !(p d)) c = false := by
      intro c hc
      simp [hl c hc]
    obtain ⟨h1, h2⟩ := takeWhile_token_append (fun d => !(p d)) t' l hq hql
    rw [List.cons_append, splitTokens, if_neg (by simp [ha]), h1, h2]

theorem splitTokens_joinSep (p : Char → Bool) (hsep : p ',' = true) :
    ∀ ts : List (List Char), (∀ t ∈ ts, t ≠ [] ∧ ∀ c ∈ t, p c = false) →
      splitTokens p (joinSep ts) = ts
  | [], _ => by rw [joinSep, splitTokens]
  | [t], h => by
    obtain ⟨ht, htc⟩ := h t (List.mem_cons_self t [])
    rw [joinSep, show t = t ++ [] from (List.append_nil t).symm]
    rw [splitTokens_token_append p t [] (by simpa using ht) (by simpa using htc)
      (fun c hc => by simp at hc)]
    rw [splitTokens]
    simp
  | t :: u :: ts, h => by
    obtain ⟨ht, htc⟩ := h t (List.mem_cons_self t (u :: ts))
    have hrest : ∀ x ∈ u :: ts, x ≠ [] ∧ ∀ c ∈ x, p c = false :=
      fun x hx => h x (List.mem_cons_of_mem t hx)
    rw [joinSep, splitTokens_token_append p t (',' :: joinSep (u :: ts)) ht htc
      (fun c hc => by
        have he : (',') = c := by simpa using hc
        rw [← he]; exact hsep)]
    rw [splitTokens, if_pos hsep, splitTokens_joinSep p hsep (u :: ts) hrest]

/-- C9: tokenizing the effective group string (the explicit string, or the
manifest default when the explicit string is empty) never yields an empty
token, and re-joining the tokens with a separator and re-splitting yields
the same token list. -/
theorem C9_group_tokenization (m : Manifest) (g : String) :
    (∀ t ∈ effectiveGroups m g, t ≠ "") ∧
    tokenizeGroups (rejoinGroups (effectiveGroups m g)) = effectiveGroups m g := by
  have hsound := splitTokens_sound isGroupSep
    (if g = "" then m.GetGroupsStr else g).toList.length
    (if g = "" then m.GetGroupsStr else g).toList (Nat.le_refl _)
  constructor
  · intro t ht
    obtain ⟨t', ht', rfl⟩ := List.mem_map.mp ht
    intro hemp
    exact (hsound t' ht').1 (by simpa using congrArg String.data hemp)
  · have hmaps : ∀ ts : List (List Char), (ts.map String.mk).map String.toList = ts := by
      intro ts
      induction ts with
      | nil => rfl
      | cons t rest ih =>
        rw [List.map_cons, List.map_cons, ih]
        rfl
    set s := (if g = "" then m.GetGroupsStr else g) with hs
    show tokenizeGroups (rejoinGroups (tokenizeGroups s)) = tokenizeGroups s
    have h1 : (rejoinGroups (tokenizeGroups s)).toList
        = joinSep (splitTokens isGroupSep s.toList) := by
      show joinSep (((splitTokens isGroupSep s.toList).map String.mk).map String.toList)
          = joinSep (splitTokens isGroupSep s.toList)
      rw [hmaps]
    show (splitTokens isGroupSep (rejoinGroups (tokenizeGroups s)).toList).map String.mk
        = tokenizeGroups s
    rw [h1, splitTokens_joinSep isGroupSep rfl _ hsound]
    rfl

theorem probeChain_spec (td : String) :
    ∀ (n : Nat) (p : String), p.length ≤ n →
      (probeChain td p).fst.Chain' (fun a b => b = dirname a) ∧
      ((probeChain td p).fst = [] ∨ (probeChain td p).fst.head? = some p) := by
  intro n
  induction n with
  | zero =>
    intro p hp
    have hp0 : p = "" := by
      apply String.ext
      exact List.eq_nil_of_length_eq_zero (Nat.le_zero.mp hp)
    subst hp0
    rw [probeChain.eq_def]
    simp
  | succ n ih =>
    intro p hp
    rw [probeChain.eq_def]
    by_cases h1 : p = "" ∨ p = td
    · rw [if_pos h1]
      simp
    · rw [if_neg h1]
      by_cases hdp : dirname p = p
      · rw [dif_pos hdp]
        simp
      · rw [dif_neg hdp]
        obtain ⟨ih3, ih4⟩ := ih (dirname p)
          (Nat.le_of_lt_succ (Nat.lt_of_lt_of_le (dirname_lt_of_ne hdp) hp))
        constructor
        · rw [List.chain'_cons']
          refine ⟨?_, ih3⟩
          intro b hb
          rcases ih4 with h4 | h4
          · rw [h4] at hb
            simp at hb
          · rw [h4] at hb
            simpa using hb.symm
        · right
          rfl

theorem walkPath_eq_probe (bp : List (String × Project)) (td : String) :
    ∀ (n : Nat) (p : String), p.length ≤ n →
      (walkPath bp td p).fst
          = (probeChain td p).fst.findSome? (fun q => dictGet bp q) ∧
      ((walkPath bp td p).fst = none →
          (walkPath bp td p).snd = (probeChain td p).snd) := by
  intro n
  induction n with
  | zero =>
    intro p hp
    have hp0 : p = "" := by
      apply String.ext
      exact List.eq_nil_of_length_eq_zero (Nat.le_zero.mp hp)
    subst hp0
    rw [walkPath.eq_def, probeChain.eq_def]
    simp
  | succ n ih =>
    intro p hp
    rw [walkPath.eq_def, probeChain.eq_def]
    by_cases h1 : p = "" ∨ p = td
    · rw [if_pos h1, if_pos h1]
      simp
    · rw [if_neg h1, if_neg h1]
      cases hdg : dictGet bp p with
      | some pr =>
        by_cases hdp : dirname p = p
        · simp [hdp, List.findSome?_cons, hdg]
        · simp [hdp, List.findSome?_cons, hdg]
      | none =>
        by_cases hdp : dirname p = p
        · simp [hdp, List.findSome?_cons, hdg]
        · obtain ⟨ih1, ih2⟩ := ih (dirname p)
            (Nat.le_of_lt_succ (Nat.lt_of_lt_of_le (dirname_lt_of_ne hdp) hp))
          constructor
          · simp only [dif_neg hdp, List.findSome?_cons, hdg]
            exact ih1
          · intro hnone
            simp only [dif_neg hdp] at hnone ⊢
            exact ih2 hnone

/-- C2: path-to-project resolution.  If the path exists on disk, the index
is probed at the path and then at each successive parent (`probeChain`:
each later probe is the `dirname` of the previous one, the walk stops at
the top directory or when the parent no longer changes the path), the
first hit wins, and the top directory is looked up once more when the walk
ended there; if the path does not exist on disk, exactly one exact lookup
is performed; the result is the matched project or none. -/
theorem C2_path_to_project (env : Env) (bp : List (String × Project)) (m : Manifest)
    (path : String) :
    (env.fsExists path = false → GetProjectByPath env bp m path = dictGet bp path) ∧
    (env.fsExists path = true →
      GetProjectByPath env bp m path =
        ((probeChain m.topdir path).fst.findSome? (fun q => dictGet bp q)).or
          (if (probeChain m.topdir path).snd = m.topdir
            then dictGet bp m.topdir else none)) ∧
    (probeChain m.topdir path).fst.Chain' (fun a b => b = dirname a) ∧
    ((probeChain m.topdir path).fst = [] ∨
      (probeChain m.topdir path).fst.head? = some path) := by
  obtain ⟨hchain, hhead⟩ := probeChain_spec m.topdir path.length path (Nat.le_refl _)
  obtain ⟨h1, h2⟩ := walkPath_eq_probe bp m.topdir path.length path (Nat.le_refl _)
  refine ⟨?_, ?_, hchain, hhead⟩
  · intro hf
    unfold GetProjectByPath
    rw [hf]
    simp
  · intro hf
    unfold GetProjectByPath
    rw [hf]
    simp only [if_true]
    cases hw : walkPath bp m.topdir path with
    | mk fst snd =>
      cases fst with
      | some pr =>
        have : (probeChain m.topdir path).fst.findSome? (fun q => dictGet bp q) = some pr := by
          rw [← h1, hw]
        rw [this]
        rfl
      | none =>
        have hfind : (probeChain m.topdir path).fst.findSome? (fun q => dictGet bp q) = none := by
          rw [← h1, hw]
        have hsnd : snd = (probeChain m.topdir path).snd := by
          have := h2 (by rw [hw])
          rw [hw] at this
          exact this
        rw [hfind, hsnd]
        simp

/-- Witness for C2: a concrete index, an existing path strictly inside the
worktree of the indexed project `projT`; the ancestor walk resolves it to
`projT`, the nearest owning project. -/
theorem C2_witness :
    envT.fsExists "/top/proj/sub" = true ∧
    GetProjectByPath envT bpT manifestT "/top/proj/sub" =
      ((probeChain manifestT.topdir "/top/proj/sub").fst.findSome?
          (fun q => dictGet bpT q)).or
        (if (probeChain manifestT.topdir "/top/proj/sub").snd = manifestT.topdir
          then dictGet bpT manifestT.topdir else none) ∧
    GetProjectByPath envT bpT manifestT "/top/proj/sub" = some projT := by
  refine ⟨rfl, (C2_path_to_project envT bpT manifestT "/top/proj/sub").2.1 rfl, ?_⟩
  have hw : walkPath bpT "/top" "/top/proj/sub" = (some projT, "/top/proj") := by
    rw [walkPath.eq_def]
    rw [if_neg (by decide)]
    simp only [show dictGet bpT "/top/proj/sub" = none from rfl]
    simp only [show dirname "/top/proj/sub" = "/top/proj" from rfl]
    rw [dif_neg (by decide)]
    rw [walkPath.eq_def]
    rw [if_neg (by decide)]
    simp only [show dictGet bpT "/top/proj" = some projT from rfl]
  show GetProjectByPath envT bpT manifestT "/top/proj/sub" = some projT
  unfold GetProjectByPath
  rw [if_pos (show envT.fsExists "/top/proj/sub" = true from rfl)]
  rw [show manifestT.topdir = "/top" from rfl, hw]

/-- Witness for C9 at a concrete group string with a doubled separator. -/
theorem C9_witness : "g1" ∈ effectiveGroups manifest0 "g1,,g2" ∧ "g1" ≠ "" := by
  have hmem : "g1" ∈ effectiveGroups manifest0 "g1,,g2" := by
    show "g1" ∈ tokenizeGroups (if ("g1,,g2" : String) = "" then manifest0.GetGroupsStr
      else "g1,,g2")
    rw [if_neg (by decide)]
    show "g1" ∈ (splitTokens isGroupSep ("g1,,g2" : String).toList).map String.mk
    rw [show ("g1,,g2" : String).toList = ['g', '1', ',', ',', 'g', '2'] from rfl]
    have e1 : splitTokens isGroupSep ['g', '1', ',', ',', 'g', '2']
        = [['g', '1'], ['g', '2']] := by
      simp [splitTokens, isGroupSep, List.takeWhile_cons, List.dropWhile_cons]
    rw [e1]
    show "g1" ∈ [String.mk ['g', '1'], String.mk ['g', '2']]
    rw [show String.mk ['g', '1'] = "g1" from rfl]
    exact List.mem_cons_self _ _
  exact ⟨hmem, (C9_group_tokenization manifest0 "g1,,g2").1 "g1" hmem⟩

/-- C1: `GetProjects` with empty args succeeds and returns exactly the
projects drawn from the manifest's full project list extended by the
name-merged derived subprojects of every sync-eligible project that
(missing_ok or exist) and match the effective group set; the name-keyed
merge resolves a collision to the subproject discovered last. -/
theorem C1_empty_args_resolution (env : Env) (bp : List (String × Project)) (m : Manifest)
    (groups : String) (missing_ok submodules_ok : Bool) :
    ∃ r, (GetProjects env bp m [] groups missing_ok submodules_ok).res = .ok r ∧
      (∀ p : Project,
        p ∈ r ↔ p ∈ m.projects ++ (derivedProjectsDict m submodules_ok).map Prod.snd ∧
          ((missing_ok || p.Exists) && env.MatchesGroups p (effectiveGroups m groups))
            = true) ∧
      (∀ k : String, dictGet (derivedProjectsDict m submodules_ok) k =
        (discoveredSubprojects m submodules_ok).reverse.find? (fun q => q.name == k)) := by
  refine ⟨sortByRelpath
      ((m.projects ++ (derivedProjectsDict m submodules_ok).map Prod.snd).filter
        (fun p => (missing_ok || p.Exists) && env.MatchesGroups p (effectiveGroups m groups))),
    rfl, ?_, ?_⟩
  · intro p
    rw [mem_sortByRelpath, List.mem_filter]
  · intro k
    rw [derivedProjectsDict_eq, dictGet_dictInsertProjects]
    simp [dictGet]

/-- C4: every project list returned by `GetProjects`, on any resolution
path, is sorted ascending by `relpath`. -/
theorem C4_result_sorted (env : Env) (bp : List (String × Project)) (m : Manifest)
    (args : List String) (groups : String) (missing_ok submodules_ok : Bool)
    (r : List Project)
    (h : (GetProjects env bp m args groups missing_ok submodules_ok).res = .ok r) :
    r.Sorted projectLe := by
  simp only [GetProjects] at h
  split at h
  · simp only [Except.ok.injEq] at h
    rw [← h]
    exact sorted_sortByRelpath _
  · split at h
    · simp only [Except.ok.injEq] at h
      rw [← h]
      exact sorted_sortByRelpath _
    · simp at h

/-- Witness for C4 at a concrete one-project manifest. -/
theorem C4_witness :
    (GetProjects env0 [] manifest0 [] "" false false).res = .ok [proj0] ∧
    List.Sorted projectLe [proj0] :=
  ⟨rfl, C4_result_sorted env0 [] manifest0 [] "" false false [proj0] rfl⟩

theorem validateProjects_error_cases (env : Env) (groups : List String) (missing_ok : Bool)
    (arg : String) :
    ∀ (ps : List Project) (e : RepoError),
      validateProjects env groups missing_ok arg ps = some e →
      (∃ p ∈ ps, missing_ok = false ∧ p.Exists = false ∧
        e = .noSuchProject (arg ++ " (" ++ p.relpath ++ ")")) ∨
      (∃ p ∈ ps, env.MatchesGroups p groups = false ∧ e = .invalidProjectGroups arg)
  | [], e, h => by simp [validateProjects] at h
  | project :: rest, e, h => by
    rw [validateProjects] at h
    by_cases h1 : (!missing_ok && !project.Exists) = true
    · rw [if_pos h1] at h
      have h1' : missing_ok = false ∧ project.Exists = false := by simpa using h1
      left
      exact ⟨project, List.mem_cons_self _ _, h1'.1, h1'.2, (Option.some.inj h).symm⟩
    · rw [if_neg h1] at h
      by_cases h2 : env.MatchesGroups project groups = true
      · rw [if_neg (by simp [h2])] at h
        rcases validateProjects_error_cases env groups missing_ok arg rest e h with h3 | h3
        · obtain ⟨p, hp, hrest⟩ := h3
          exact Or.inl ⟨p, List.mem_cons_of_mem _ hp, hrest⟩
        · obtain ⟨p, hp, hrest⟩ := h3
          exact Or.inr ⟨p, List.mem_cons_of_mem _ hp, hrest⟩
      · have hg : env.MatchesGroups project groups = false := eq_false_of_ne_true h2
        rw [if_pos (by simp [hg])] at h
        right
        exact ⟨project, List.mem_cons_self _ _, hg, (Option.some.inj h).symm⟩

theorem processArgs_error_cases (env : Env) (m : Manifest) (groups : List String)
    (missing_ok submodules_ok : Bool) :
    ∀ (args : List String) (byPath : List (String × Project)) (e : RepoError)
      (bpf : List (String × Project)),
      processArgs env m groups missing_ok submodules_ok byPath args = (.error e, bpf) →
      ∃ a ∈ args,
        e = .noSuchProject a ∨
        (∃ p : Project, missing_ok = false ∧ p.Exists = false ∧
          e = .noSuchProject (a ++ " (" ++ p.relpath ++ ")")) ∨
        (∃ p : Project, env.MatchesGroups p groups = false ∧
          e = .invalidProjectGroups a)
  | [], byPath, e, bpf, h => by simp [processArgs] at h
  | arg :: rest, byPath, e, bpf, h => by
    simp only [processArgs] at h
    by_cases h1 : (resolveArg env m groups submodules_ok byPath arg).fst.isEmpty = true
    · rw [if_pos h1] at h
      injection h with hA hB
      injection hA with hE
      exact ⟨arg, List.mem_cons_self _ _, Or.inl hE.symm⟩
    · rw [if_neg h1] at h
      cases hv : validateProjects env groups missing_ok arg
          (resolveArg env m groups submodules_ok byPath arg).fst with
      | some e2 =>
        rw [hv] at h
        injection h with hA hB
        injection hA with hE
        rcases validateProjects_error_cases env groups missing_ok arg _ e2 hv with h3 | h3
        · obtain ⟨p, _, hmo, hex, he2⟩ := h3
          exact ⟨arg, List.mem_cons_self _ _, Or.inr (Or.inl ⟨p, hmo, hex, hE ▸ he2⟩)⟩
        · obtain ⟨p, _, hmg, he2⟩ := h3
          exact ⟨arg, List.mem_cons_self _ _, Or.inr (Or.inr ⟨p, hmg, hE ▸ he2⟩)⟩
      | none =>
        rw [hv] at h
        cases hrec : processArgs env m groups missing_ok submodules_ok
            (resolveArg env m groups submodules_ok byPath arg).snd rest with
        | mk r2 bp2 =>
          rw [hrec] at h
          cases r2 with
          | ok res =>
            injection h with hA hB
            exact absurd hA (by simp)
          | error e3 =>
            injection h with hA hB
            injection hA with hE
            obtain ⟨a, ha, hforms⟩ := processArgs_error_cases env m groups missing_ok
              submodules_ok rest _ e3 bp2 hrec
            exact ⟨a, List.mem_cons_of_mem _ ha, hE ▸ hforms⟩

/-- C3: a `GetProjects` call with non-empty args that raises, raises one of
exactly two error kinds, with exactly these payloads: "no such project"
naming the argument (no project resolved), "no such project" with the
argument and the relpath of a resolved project that does not exist while
`missing_ok` is false, or "invalid project groups" naming the argument
when some resolved project fails the group filter; the error aborts the
call, so no partial result is returned. -/
theorem C3_error_taxonomy (env : Env) (bp : List (String × Project)) (m : Manifest)
    (args : List String) (groups : String) (missing_ok submodules_ok : Bool)
    (e : RepoError) (hargs : args ≠ [])
    (he : (GetProjects env bp m args groups missing_ok submodules_ok).res = .error e) :
    ∃ a ∈ args,
      e = .noSuchProject a ∨
      (∃ p : Project, missing_ok = false ∧ p.Exists = false ∧
        e = .noSuchProject (a ++ " (" ++ p.relpath ++ ")")) ∨
      (∃ p : Project, env.MatchesGroups p (effectiveGroups m groups) = false ∧
        e = .invalidProjectGroups a) := by
  simp only [GetProjects] at he
  split at he
  · exact absurd he (by simp)
  · split at he
    · exact absurd he (by simp)
    · rename_i heq
      injection he with hE
      exact hE ▸ processArgs_error_cases env m (effectiveGroups m groups) missing_ok
        submodules_ok args _ _ _ heq

/-- Witness for C3: a one-argument call that resolves nothing raises
exactly "no such project" naming the argument. -/
theorem C3_witness :
    ((["nope"] : List String) ≠ []) ∧
    (GetProjects env0 [] manifestE ["nope"] "" false false).res
      = .error (.noSuchProject "nope") ∧
    ∃ a ∈ (["nope"] : List String),
      RepoError.noSuchProject "nope" = .noSuchProject a ∨
      (∃ p : Project, false = false ∧ p.Exists = false ∧
        RepoError.noSuchProject "nope" = .noSuchProject (a ++ " (" ++ p.relpath ++ ")")) ∨
      (∃ p : Project, env0.MatchesGroups p (effectiveGroups manifestE "") = false ∧
        RepoError.noSuchProject "nope" = .invalidProjectGroups a) := by
  refine ⟨by simp, rfl, ?_⟩
  exact C3_error_taxonomy env0 [] manifestE ["nope"] "" false false
    (.noSuchProject "nope") (by simp) rfl

theorem findLoop_false (search : String → String → Bool) (project : Project) :
    ∀ pats : List String, findLoop search false project pats
      = pats.any (fun a => search a project.name || search a project.relpath)
  | [] => rfl
  | pat :: rest => by
    rw [findLoop, List.any_cons]
    by_cases h : (search pat project.name || search pat project.relpath) = true
    · rw [if_pos h, h]
      rfl
    · rw [if_neg h, eq_false_of_ne_true h, Bool.false_or]
      exact findLoop_false search project rest

theorem findLoop_true (search : String → String → Bool) (project : Project) :
    ∀ pats : List String, findLoop search true project pats
      = !(pats.any (fun a => search a project.name || search a project.relpath))
  | [] => rfl
  | pat :: rest => by
    rw [findLoop, List.any_cons]
    by_cases h : (search pat project.name || search pat project.relpath) = true
    · rw [if_pos h, h]
      rfl
    · rw [if_neg h, eq_false_of_ne_true h, Bool.false_or]
      exact findLoop_true search project rest

/-- C7: over the full resolved project set (empty-args `GetProjects`),
`FindProjects` with `inverse = false` returns exactly the projects some
pattern matches (against name or relpath), with `inverse = true` exactly
the projects no pattern matches, both sorted ascending by relpath.  The
per-pattern matcher `search` stands for the external case-insensitive
compiled regex search. -/
theorem C7_pattern_matching (env : Env) (bp : List (String × Project)) (m : Manifest)
    (search : String → String → Bool) (args : List String) :
    (FindProjects env bp m search args false =
      sortByRelpath ((((GetProjects env bp m [] "" false false).res).toOption.getD []).filter
        (fun p => args.any (fun a => search a p.name || search a p.relpath)))) ∧
    (FindProjects env bp m search args true =
      sortByRelpath ((((GetProjects env bp m [] "" false false).res).toOption.getD []).filter
        (fun p => !(args.any (fun a => search a p.name || search a p.relpath))))) ∧
    (FindProjects env bp m search args false).Sorted projectLe ∧
    (FindProjects env bp m search args true).Sorted projectLe := by
  refine ⟨?_, ?_, ?_, ?_⟩
  · simp only [FindProjects]
    refine congrArg sortByRelpath ?_
    exact List.filter_congr (fun p _ => findLoop_false search p args)
  · simp only [FindProjects]
    refine congrArg sortByRelpath ?_
    exact List.filter_congr (fun p _ => findLoop_true search p args)
  · exact sorted_sortByRelpath _
  · exact sorted_sortByRelpath _

/-- C5: with a single input or one job, `ExecuteInParallel` constructs no
pool: the callback gets no pool handle and the sequence of `func` applied
to the inputs in input order, and the callback's value is returned. -/
theorem C5_serial_execution {α β γ ε : Type} (jobs : Nat) (func : α → Except ε β)
    (inputs : List α)
    (callback : Option Pool → Option OutputSink → List (Except ε β) → Except ε γ)
    (output : Option OutputSink) (ordered : Bool) (completionOrder : List α → List α)
    (h : inputs.length = 1 ∨ jobs = 1) :
    (ExecuteInParallel jobs func inputs callback output ordered completionOrder).poolUsed
        = none ∧
    (ExecuteInParallel jobs func inputs callback output ordered completionOrder).value
        = callback none output (inputs.map func) := by
  unfold ExecuteInParallel
  rw [if_pos h]
  exact ⟨rfl, rfl⟩

/-- Witness for C5: one input, eight jobs; no pool, and the returned value
is exactly what the callback returned on the serial stream. -/
theorem C5_witness :
    (([42] : List Nat).length = 1 ∨ (8 : Nat) = 1) ∧
    (ExecuteInParallel 8 (fun n : Nat => (Except.ok (n + 1) : Except Unit Nat)) [42]
      (fun pool _ results => Except.ok (pool, results)) none true id).poolUsed = none ∧
    (ExecuteInParallel 8 (fun n : Nat => (Except.ok (n + 1) : Except Unit Nat)) [42]
      (fun pool _ results => Except.ok (pool, results)) none true id).value
      = Except.ok (none, [Except.ok 43]) := by
  have h := C5_serial_execution 8 (fun n : Nat => (Except.ok (n + 1) : Except Unit Nat)) [42]
    (fun pool _ results => Except.ok (pool, results)) none true id (Or.inl rfl)
  exact ⟨Or.inl rfl, h.1, h.2.trans rfl⟩

/-- C6: when the supplied output sink has a completion hook (it is a
`progress.Progress`), the hook runs exactly once per call, on every exit
path — also when `func` elements are errors or the callback itself
raises. -/
theorem C6_completion_hook {α β γ ε : Type} (jobs : Nat) (func : α → Except ε β)
    (inputs : List α)
    (callback : Option Pool → Option OutputSink → List (Except ε β) → Except ε γ)
    (output : Option OutputSink) (ordered : Bool) (completionOrder : List α → List α)
    (h : output = some OutputSink.progressSink) :
    (ExecuteInParallel jobs func inputs callback output ordered completionOrder).endCalls
      = 1 := by
  unfold ExecuteInParallel
  split
  · simp [h]
  · simp [h]

/-- Witness for C6: the callback raises, and the completion hook still
fires exactly once. -/
theorem C6_witness :
    (some OutputSink.progressSink = some OutputSink.progressSink) ∧
    (ExecuteInParallel 4 (fun n : Nat => (Except.ok (n * n) : Except String Nat)) [1, 2, 3]
      (fun _ _ _ => (Except.error "boom" : Except String Nat))
      (some OutputSink.progressSink) false id).endCalls = 1 :=
  ⟨rfl, C6_completion_hook 4 (fun n : Nat => (Except.ok (n * n) : Except String Nat))
    [1, 2, 3] (fun _ _ _ => (Except.error "boom" : Except String Nat))
    (some OutputSink.progressSink) false id rfl⟩

/-- C8 counterexample: after a non-empty-args call started with an empty
stored map, the command state's `_by_path` equals the index built during
the call — it is persisted on the Command object, not discarded. -/
theorem C8_counterexample :
    (GetProjects env0 [] manifestC8 ["projA"] "" false false).by_path
      = ResetPathToProjectMap manifestC8.projects ∧
    (GetProjects env0 [] manifestC8 ["projA"] "" false false).by_path ≠ [] := by
  constructor
  · rfl
  · intro h
    exact absurd (congrArg List.length h) (by decide)

/-- C8 amended: the path index is rebuilt from scratch (from the manifest
project list) at the start of every non-empty-args invocation and extended
only during it, so although the map remains stored on the Command object
after the call, no invocation ever reads entries left by a previous call:
result and final index are independent of the stored map's prior contents,
and empty-args invocations leave the stored map untouched. -/
theorem C8_amended_index_call_scoped (env : Env) (bp1 bp2 : List (String × Project))
    (m : Manifest) (args : List String) (groups : String)
    (missing_ok submodules_ok : Bool) :
    (GetProjects env bp1 m args groups missing_ok submodules_ok).res
        = (GetProjects env bp2 m args groups missing_ok submodules_ok).res ∧
    (args ≠ [] →
      (GetProjects env bp1 m args groups missing_ok submodules_ok).by_path
          = (GetProjects env bp2 m args groups missing_ok submodules_ok).by_path) ∧
    (args = [] →
      (GetProjects env bp1 m args groups missing_ok submodules_ok).by_path = bp1) ∧
    (args ≠ [] →
      (GetProjects env bp1 m args groups missing_ok submodules_ok).by_path
          = (processArgs env m (effectiveGroups m groups) missing_ok submodules_ok
              (ResetPathToProjectMap m.projects) args).snd) := by
  cases args with
  | nil =>
    exact ⟨rfl, fun h => absurd rfl h, fun _ => rfl, fun h => absurd rfl h⟩
  | cons a rest =>
    refine ⟨rfl, fun _ => rfl, fun h => absurd h (List.cons_ne_nil a rest), fun _ => ?_⟩
    simp only [GetProjects]
    rw [if_neg (by simp)]
    cases hpa : processArgs env m (effectiveGroups m groups) missing_ok submodules_ok
        (ResetPathToProjectMap m.projects) (a :: rest) with
    | mk r bpf =>
      cases r with
      | ok res => simp
      | error e => simp

/-- Witness for C8 amended: two calls differing only in the stored map
left by a previous call end with the same index. -/
theorem C8_amended_witness :
    ((["projA"] : List String) ≠ []) ∧
    (GetProjects env0 [("stale", projA)] manifestC8 ["projA"] "" false false).by_path
      = (GetProjects env0 [] manifestC8 ["projA"] "" false false).by_path :=
  ⟨by simp, (C8_amended_index_call_scoped env0 [("stale", projA)] [] manifestC8
      ["projA"] "" false false).2.1 (by simp)⟩

/-- C10 counterexample: both projects of `manifestD` are sync-eligible and
each contributes a derived subproject named "sub"; the first discovered
one (`sub1`, relpath "s1") is overwritten in the name-keyed merge and
never appended to `manifest.projects`, so not every discovered derived
subproject is appended. -/
theorem C10_counterexample :
    sub1 ∈ discoveredSubprojects manifestD false ∧
    sub1.relpath = "s1" ∧
    ((GetProjects env0 [] manifestD [] "" false false).manifestProjects).map Project.relpath
      = ["a2", "b2", "s2"] ∧
    "s1" ∉ ((GetProjects env0 [] manifestD [] "" false false).manifestProjects).map
        Project.relpath := by
  refine ⟨?_, rfl, rfl, by decide⟩
  rw [show discoveredSubprojects manifestD false = [sub1, sub2] from rfl]
  exact List.mem_cons_self _ _

/-- C10 amended: `GetProjects` with empty args mutates the manifest handle
in place: `manifest.projects` is extended with the name-merged derived
subprojects (one per distinct name, the last discovered winning a
collision); everything appended is a discovered derived subproject of a
sync-eligible project, and every discovered subproject is represented in
the appended list by a project with the same name. -/
theorem C10_amended_manifest_mutation (env : Env) (bp : List (String × Project))
    (m : Manifest) (groups : String) (missing_ok submodules_ok : Bool) :
    (GetProjects env bp m [] groups missing_ok submodules_ok).manifestProjects
        = m.projects ++ (derivedProjectsDict m submodules_ok).map Prod.snd ∧
    (∀ p ∈ (derivedProjectsDict m submodules_ok).map Prod.snd,
      p ∈ discoveredSubprojects m submodules_ok) ∧
    (∀ q ∈ discoveredSubprojects m submodules_ok,
      ∃ v ∈ (derivedProjectsDict m submodules_ok).map Prod.snd, v.name = q.name) := by
  refine ⟨rfl, ?_, ?_⟩
  · intro p hp
    rw [derivedProjectsDict_eq] at hp
    rcases mem_values_dictInsertProjects hp with h | h
    · simp at h
    · exact h
  · intro q hq
    have hsome : ((discoveredSubprojects m submodules_ok).reverse.find?
        (fun r => r.name == q.name)).isSome := by
      rw [List.find?_isSome]
      exact ⟨q, List.mem_reverse.mpr hq, by simp⟩
    obtain ⟨v, hv⟩ := Option.isSome_iff_exists.mp hsome
    have hname : v.name = q.name := by simpa using List.find?_some hv
    have hget : dictGet (derivedProjectsDict m submodules_ok) q.name = some v := by
      rw [derivedProjectsDict_eq, dictGet_dictInsertProjects, hv]
      rfl
    exact ⟨v, dictGet_mem_values hget, hname⟩

/-- Witness for C10 amended at the colliding-names manifest: the surviving
merged subproject is a discovered derived subproject. -/
theorem C10_amended_witness :
    sub2 ∈ (derivedProjectsDict manifestD false).map Prod.snd ∧
    sub2 ∈ discoveredSubprojects manifestD false := by
  have hmem : sub2 ∈ (derivedProjectsDict manifestD false).map Prod.snd := by
    rw [show (derivedProjectsDict manifestD false).map Prod.snd = [sub2] from rfl]
    exact List.mem_cons_self _ _
  exact ⟨hmem,
    (C10_amended_manifest_mutation env0 [] manifestD "" false false).2.1 sub2 hmem⟩
